import Mathlib

/-!
Shallow embedding of the domain/hostname validation core and the
error-accumulator of the zvalidate Go package (arp242/zvalidate):
`punycode.go` (RFC 3492 decoder), the domain part of `validators.go`
(`validDomain`, `Domain`, `Hostname`), and the `Validator` accumulator
(`Append`, `Pop`, `HasErrors`, `Sub`, `String`).

Go strings are modelled as `List Char` (sequences of Unicode scalar
values); Go's byte length `len(s)` is `utf8Len` (the sum of the UTF-8
sizes of the characters).  All byte-level operations the code performs
on strings — indexing the first and the last byte, splitting on '.',
locating the last '-', testing the literal "xn--" — involve only ASCII
characters, so on valid UTF-8 input they coincide with the
character-level operations used here (an ASCII byte never occurs inside
a multi-byte UTF-8 sequence).
-/

deriving instance DecidableEq for Except

namespace ZV

/-- Go `len(s)` on a string: the UTF-8 byte length. -/
def utf8Len (s : List Char) : Nat := (s.map Char.utf8Size).sum

/-- Failure test on an `Except` result (Go's `err != nil`). -/
def isFailure {ε α : Type} : Except ε α → Bool
  | .error _ => true
  | .ok _ => false

/-- Go `strings.Split(value, ".")`: split on every '.', keeping empty
pieces; the empty string splits to `[""]`. -/
def splitOnDot : List Char → List (List Char)
  | [] => [[]]
  | c :: cs =>
    let r := splitOnDot cs
    if c = '.' then [] :: r
    else
      match r with
      | [] => [[c]]
      | h :: t => (c :: h) :: t

/-! ### Punycode decoder (punycode.go, RFC 3492 §6.2)

The Go code computes with `int32`; all intermediate quantities here are
kept in `Int`, with explicit two's-complement wrapping (`wrap32`)
applied exactly at the two additions that can exceed the `int32` range
(`i += digit * w` and `n += i / x`).  Every other operation is shown in
comments to stay within `int32` bounds thanks to the guards the code
itself performs, so plain `Int` arithmetic is faithful there. -/

/-- Punycode parameters from RFC 3492 §5 (punycode.go). -/
def pBase : Int := 36

def pDamp : Int := 700

def pInitialBias : Int := 72

def pInitialN : Int := 128

def pSkew : Int := 38

def pTmax : Int := 26

def pTmin : Int := 1

/-- Go `math.MaxInt32`. -/
def maxInt32 : Int := 2147483647

/-- Go `utf8.MaxRune`. -/
def maxRune : Int := 0x10FFFF

/-- Two's-complement wrap into the `int32` range, the behaviour of Go's
signed 32-bit addition. -/
def wrap32 (x : Int) : Int := (x + 2147483648) % 4294967296 - 2147483648

/-- `punyDecodeDigit` (punycode.go): base-36 digit value of one byte.
The ranges are ASCII, so testing the character is the same as testing
the byte; a non-ASCII character fails just as its lead byte would. -/
def punyDecodeDigit (x : Char) : Option Int :=
  if '0' ≤ x ∧ x ≤ '9' then some ((x.toNat : Int) - 22)
  else if 'A' ≤ x ∧ x ≤ 'Z' then some ((x.toNat : Int) - 65)
  else if 'a' ≤ x ∧ x ≤ 'z' then some ((x.toNat : Int) - 97)
  else none

/-- The `for delta > ((base-tmin)*tmax)/2` loop of `punyAdapt`.  Each
round divides a non-negative `delta` by 35, so the loop ends; 64 rounds
of fuel are far more than the ≤ 7 rounds a 32-bit value can take. -/
def punyAdaptLoopFuel : Nat → Int → Int → Int
  | 0, delta, k => k + (pBase - pTmin + 1) * delta / (delta + pSkew)
  | fuel + 1, delta, k =>
    if delta > ((pBase - pTmin) * pTmax) / 2 then
      punyAdaptLoopFuel fuel (delta / (pBase - pTmin)) (k + pBase)
    else k + (pBase - pTmin + 1) * delta / (delta + pSkew)

/-- `punyAdapt` (punycode.go, RFC 3492 §6.1).  `delta` is always
non-negative at the call sites, so the truncating Go divisions agree
with `Int` division here. -/
def punyAdapt (delta numPoints : Int) (firstTime : Bool) : Int :=
  let delta := if firstTime then delta / pDamp else delta / 2
  let delta := delta + delta / numPoints
  punyAdaptLoopFuel 64 delta 0

/-- The inner `for k := base; ; k += base` loop of `punyDecode`:
decode one generalized variable-length integer.  Returns the new `i`
and the unread rest of the input.  Running out of input is the
`pos == len(encoded)` error check at the top of the loop body. -/
def punyDecodeInt : List Char → Int → Int → Int → Int → Option (Int × List Char)
  | [], _, _, _, _ => none
  | c :: cs, i, w, k, bias =>
    match punyDecodeDigit c with
    | none => none
    | some digit =>
      -- digit*w cannot overflow (w < MaxInt32/36 by the guard below,
      -- digit ≤ 35); the sum is < 2^32, so the Go int32 addition wraps
      -- to a negative value exactly when the true sum exceeds MaxInt32.
      let i := wrap32 (i + digit * w)
      if i < 0 then none
      else
        let t := k - bias
        let t := if t < pTmin then pTmin else if t > pTmax then pTmax else t
        if digit < t then some (i, cs)
        else
          -- w*(base-t) ≤ (MaxInt32/36)*35 < MaxInt32: no overflow.
          let w := w * (pBase - t)
          if w ≥ maxInt32 / pBase then none
          else punyDecodeInt cs i w (k + pBase) bias

/-- The outer `for pos < len(encoded)` loop of `punyDecode`.  The
output is kept as Go keeps it, a `[]rune` = list of `int32` values.
Each round consumes at least one input character (`punyDecodeInt`
errors on empty input and always advances), so `fuel := length + 1`
never runs out; exhausted fuel conservatively reports an error. -/
def punyInsertLoop : Nat → List Char → List Int → Int → Int → Int → Option (List Int)
  | _, [], output, _, _, _ => some output
  | 0, _ :: _, _, _, _, _ => none
  | fuel + 1, l, output, i, n, bias =>
    match punyDecodeInt l i 1 pBase bias with
    | none => none
    | some (i1, rest) =>
      let x : Int := (output.length : Int) + 1
      let bias := punyAdapt (i1 - i) x (i == 0)
      -- i1/x ≤ MaxInt32 while n ≤ MaxRune on entry, so the int32
      -- addition can wrap; Go then checks `n > utf8.MaxRune`.
      let n := wrap32 (n + i1 / x)
      let i2 := i1 % x
      if n > maxRune ∨ output.length ≥ 1024 then none
      else
        let output := output.take i2.toNat ++ n :: output.drop i2.toNat
        punyInsertLoop fuel rest output (i2 + 1) n bias

/-- Go `string([]rune)`: an out-of-range or surrogate rune encodes as
U+FFFD, everything else as itself. -/
def runeToChar (r : Int) : Char :=
  if 0 ≤ r ∧ (r < 0xD800 ∨ (0xDFFF < r ∧ r ≤ 0x10FFFF)) then Char.ofNat r.toNat
  else '�'

/-- Index of the last '-' in the label, Go
`strings.LastIndex(encoded, "-")` (with `none` for -1).  Since '-' is
ASCII, the byte position found by Go splits the string at the same
place as the character position used here. -/
def lastHyphenIdx (l : List Char) : Option Nat :=
  match (l.reverse.findIdx? (· = '-')) with
  | none => none
  | some j => some (l.length - 1 - j)

/-- `punyDecode` (punycode.go): decode one label (the part after the
"xn--", which the caller already stripped).  `none` is Go's
`punyError`; note the Go function returns the empty string alongside
every error. -/
def punyDecode (encoded : List Char) : Option (List Char) :=
  if encoded = [] then some []
  else
    let pos : Nat :=
      match lastHyphenIdx encoded with
      | none => 0
      | some j => j + 1
    if pos = 1 then none
    else if pos = encoded.length then some encoded.dropLast
    else
      let output : List Int :=
        if pos ≠ 0 then (encoded.take (pos - 1)).map (fun c => (c.toNat : Int))
        else []
      let digits := encoded.drop pos
      match punyInsertLoop (digits.length + 1) digits output 0 pInitialN pInitialBias with
      | none => none
      | some out => some (out.map runeToChar)

/-! ### Domain validation (validators.go: validDomain, Domain, Hostname) -/

/-- Model of the Go standard library's `unicode.IsLetter`, exact on the
Latin-1 range (code points < 0x100: ASCII letters plus ª µ º and the
Latin-1 letter blocks).  Code points ≥ 0x100 are mapped to `false`;
no statement in this development depends on letters outside Latin-1. -/
def goIsLetter (c : Char) : Bool :=
  let n := c.toNat
  (0x41 ≤ n && n ≤ 0x5A) || (0x61 ≤ n && n ≤ 0x7A) ||
  n == 0xAA || n == 0xB5 || n == 0xBA ||
  (0xC0 ≤ n && n ≤ 0xD6) || (0xD8 ≤ n && n ≤ 0xF6) || (0xF8 ≤ n && n ≤ 0xFF)

/-- Model of Go's `unicode.IsDigit`, exact on the Latin-1 range (the
only decimal digits below 0x100 are ASCII '0'-'9'); code points ≥ 0x100
are mapped to `false`. -/
def goIsDigit (c : Char) : Bool :=
  '0' ≤ c && c ≤ '9'

/-- The allowed-character test of the `for _, c := range l` loop in
`validDomain`: a letter, a digit, or '-'. -/
def validDomainChar (c : Char) : Bool :=
  goIsLetter c || goIsDigit c || c == '-'

/-- The distinct error messages `validDomain` produces (each
constructor is one of its `fmt.Errorf`/`errors.New` calls). -/
inductive DomainError where
  | tooShort : DomainError
  | needLabels : Nat → DomainError
  | labelTooLong : DomainError
  | notPunycode : List Char → DomainError
  | invalidChar : Char → DomainError
  | domainTooLong : DomainError
deriving DecidableEq

/-- Render a `DomainError` the way `validDomain` formats it.  `%q` on a
rune is modelled as plain single quotes, which matches Go for the
printable ASCII characters; no statement here quotes any other
character.  Note that Go's `punyDecode` returns the empty string
alongside every error, so the `%q` in "not valid punycode" always
quotes the (empty) first return value. -/
def DomainError.render : DomainError → String
  | .tooShort => "too short"
  | .needLabels n => "need at least " ++ toString n ++ " labels"
  | .labelTooLong => "label is longer than 63 bytes"
  | .notPunycode l => "not valid punycode: \x22" ++ String.mk l ++ "\x22"
  | .invalidChar c => "invalid character: " ++ String.mk ['\'', c, '\'']
  | .domainTooLong => "domain is longer than 255 bytes"

/-- The `for i, l := range labels` loop of `validDomain`: checks each
label in order (first failure wins) and returns the accumulated
pre-decode byte total together with the labels, punycode labels
replaced by their decoded form. -/
def processLabels : List (List Char) → Except DomainError (Nat × List (List Char))
  | [] => .ok (0, [])
  | l :: rest =>
    if utf8Len l > 63 then .error .labelTooLong
    else
      let decoded : Except DomainError (List Char) :=
        if l.take 4 = ['x', 'n', '-', '-'] then
          match punyDecode (l.drop 4) with
          | none => .error (.notPunycode []) -- punyDecode returned ("", err)
          | some d => .ok d
        else .ok l
      match decoded with
      | .error e => .error e
      | .ok l1 =>
        match l1.find? (fun c => !validDomainChar c) with
        | some c => .error (.invalidChar c)
        | none =>
          match processLabels rest with
          | .error e => .error e
          | .ok (t, ls) => .ok (utf8Len l + t, l1 :: ls)

/-- The single-trailing-dot strip of `validDomain`
(`value = value[:len(value)-1]` when the last byte is '.'). -/
def stripTrailingDot (value : List Char) : List Char :=
  if value.getLast? = some '.' then value.dropLast else value

/-- `validDomain` (validators.go).  `len(value) < 3` and
`value[0] == '.'` are byte tests; both coincide with the
character-level tests used here ('.' is ASCII, and the byte length is
at least the character count). -/
def validDomain (value : List Char) (minLabels : Nat) : Except DomainError (List (List Char)) :=
  if utf8Len value < 3 then .error .tooShort
  else if value.head? = some '.' then .error .tooShort
  else
    let value := stripTrailingDot value
    let labels := splitOnDot value
    if labels.length < minLabels then .error (.needLabels minLabels)
    else
      match processLabels labels with
      | .error e => .error e
      | .ok (total, labels1) =>
        if total > 255 then .error .domainTooLong
        else .ok labels1

/-! ### The error accumulator (Validator: template_test.go lines 51-325
holds the package file defining it)

Go's `map[string][]string` is modelled as an association list with
unique keys (a real Go map never holds a key twice); every operation
below preserves that invariant.  Statements about `Sub` on an arbitrary
accumulator carry the key-uniqueness assumption explicitly. -/

/-- Map lookup, `v.Errors[key]` (with `none` for a missing key, Go's
nil slice). -/
def lookupKey (key : String) : List (String × List String) → Option (List String)
  | [] => none
  | (k, v) :: rest => if k = key then some v else lookupKey key rest

/-- `v.Errors[key] = append(v.Errors[key], msgs...)`: extend the list
at `key`, creating the entry if absent. -/
def updateAdd (key : String) (msgs : List String) : List (String × List String) → List (String × List String)
  | [] => [(key, msgs)]
  | (k, v) :: rest =>
    if k = key then (k, v ++ msgs) :: rest else (k, v) :: updateAdd key msgs rest

/-- `delete(v.Errors, key)`. -/
def eraseKey (key : String) : List (String × List String) → List (String × List String)
  | [] => []
  | (k, v) :: rest => if k = key then rest else (k, v) :: eraseKey key rest

/-- The `Validator` struct: the `Errors map[string][]string` field. -/
structure Validator where
  errors : List (String × List String)
deriving DecidableEq

/-- `New()`: an empty error map. -/
def Validator.new : Validator := ⟨[]⟩

/-- `Append(key, value, format...)`.  Go formats the message with
`fmt.Sprintf(value, format...)`; with no format arguments that is the
identity on messages containing no '%' verb, and every message appended
in this development is '%'-free, so the formatting is modelled as the
identity. -/
def Validator.append (v : Validator) (key msg : String) : Validator :=
  ⟨updateAdd key [msg] v.errors⟩

/-- `HasErrors()`: `len(v.Errors) > 0`. -/
def Validator.hasErrors (v : Validator) : Bool :=
  !v.errors.isEmpty

/-- `Pop(key)`: returns `nil` (here `none`) and leaves the map alone
when the key has no messages, otherwise removes the key and returns its
list. -/
def Validator.pop (v : Validator) (key : String) : Option (List String) × Validator :=
  match lookupKey key v.errors with
  | none => (none, v)
  | some [] => (none, v)
  | some msgs => (some msgs, ⟨eraseKey key v.errors⟩)

/-- The `fmt.Sprintf("%s[%s]", key, subKey)` composition `Sub` applies
when `subKey` is non-empty. -/
def composeKey (key subKey : String) : String :=
  if subKey ≠ "" then key ++ "[" ++ subKey ++ "]" else key

/-- The `for k, val := range sub.Errors` loop of `Sub`: each entry of
the sub-accumulator is appended at `pfx ++ k` (where
`pfx = key ++ "."`).  Go iterates the map in unspecified order; the
association-list order is used here, and distinct keys compose to
distinct keys, so per-key results do not depend on the order. -/
def mergeSub (pfx : String) : List (String × List String) → List (String × List String) → List (String × List String)
  | [], acc => acc
  | (k, msgs) :: rest, acc => mergeSub pfx rest (updateAdd (pfx ++ k) msgs acc)

/-- The shapes a non-nil `error` argument of `Sub` can take: a
`Validator` (by value or by pointer — `Sub` treats both alike) or any
other error, represented by its `Error()` text. -/
inductive GoError where
  | vala : Validator → GoError
  | plain : String → GoError
deriving DecidableEq

/-- `Sub(key, subKey, err)` (the `err == nil` case is `none`). -/
def Validator.sub (v : Validator) (key subKey : String) (err : Option GoError) : Validator :=
  match err with
  | none => v
  | some e =>
    let key := composeKey key subKey
    match e with
    | .plain msg => v.append key msg
    | .vala s =>
      if !s.hasErrors then v
      else ⟨mergeSub (key ++ ".") s.errors v.errors⟩

/-- Go string comparison (`sort.Strings` uses `<` on strings, byte-wise
lexicographic; UTF-8 byte order equals code-point order, so comparing
character lists is the same order). -/
def charListLt : List Char → List Char → Bool
  | [], [] => false
  | [], _ :: _ => true
  | _ :: _, [] => false
  | a :: as, b :: bs => if a < b then true else if b < a then false else charListLt as bs

/-- Ascending insertion used to model `sort.Strings` (keys are unique,
so any correct ascending sort produces the same list). -/
def insertSorted (s : String) : List String → List String
  | [] => [s]
  | t :: ts => if charListLt s.data t.data then s :: t :: ts else t :: insertSorted s ts

def sortKeys : List String → List String
  | [] => []
  | s :: ss => insertSorted s (sortKeys ss)

/-- `String()`: empty for no errors, otherwise one line per key in
sorted order, `key: msg1, msg2.\n`, with the `key: ` part omitted for
the empty key. -/
def Validator.render (v : Validator) : String :=
  if !v.hasErrors then ""
  else
    let keys := sortKeys (v.errors.map Prod.fst)
    String.join (keys.map (fun k =>
      (if k ≠ "" then k ++ ": " else "") ++
      String.intercalate ", " ((lookupKey k v.errors).getD []) ++ ".\x0a"))

/-! ### Domain and Hostname validators (validators.go)

The default message constants and the `getMessage` helper that
`Domain`/`Hostname` use live in a package file not present under
`src/` (the `messages.go` in `src/` is a different revision with an
incompatible shape), so they are modelled from the spec. -/

/-- Modelled from the spec: the missing `MessageDomain` constant, the
default human description for `Domain` ("must be a valid domain",
spec §6/§8; confirmed by `validators_test.go`). -/
def MessageDomain : String := "must be a valid domain"

/-- Modelled from the spec: the missing `MessageHostname` constant, the
default human description for `Hostname` ("must be a valid hostname",
spec §6/§8; confirmed by `validators_test.go`). -/
def MessageHostname : String := "must be a valid hostname"

/-- Modelled from the spec: the missing free `getMessage(msg, def)`
helper — the caller-supplied override message when one is given, the
default otherwise (spec §6: "overridable per-call with a
caller-supplied literal message"). -/
def getMessage (message : List String) (dflt : String) : String :=
  match message with
  | [] => dflt
  | m :: _ => m

/-- `Domain(key, value, message...)`: empty input returns nil
untouched; otherwise `validDomain(value, 2)`, appending
`"<msg>: <err>"` on failure.  The returned labels are `none` for Go's
nil slice (empty input and every failure). -/
def Validator.domain (v : Validator) (key value : String) (message : List String) : Validator × Option (List String) :=
  if value = "" then (v, none)
  else
    let msg := getMessage message MessageDomain
    match validDomain value.data 2 with
    | .error e => (v.append key (msg ++ ": " ++ e.render), none)
    | .ok labels => (v, some (labels.map String.mk))

/-- `Hostname(key, value, message...)`: as `Domain` but with
`minLabels = 1` and the hostname message. -/
def Validator.hostname (v : Validator) (key value : String) (message : List String) : Validator × Option (List String) :=
  if value = "" then (v, none)
  else
    let msg := getMessage message MessageHostname
    match validDomain value.data 1 with
    | .error e => (v.append key (msg ++ ": " ++ e.render), none)
    | .ok labels => (v, some (labels.map String.mk))

/-! ### Lemmas about the accumulator operations -/

theorem lookupKey_updateAdd_ne (K key : String) (msgs : List String)
    (l : List (String × List String)) (h : K ≠ key) :
    lookupKey K (updateAdd key msgs l) = lookupKey K l := by
  induction l with
  | nil =>
    simp only [updateAdd, lookupKey]
    rw [if_neg (fun hk => h hk.symm)]
  | cons kv rest ih =>
    obtain ⟨k, v⟩ := kv
    by_cases hk : k = key
    · subst hk
      simp only [updateAdd, if_pos rfl, lookupKey]
      rw [if_neg (fun hk => h hk.symm), if_neg (fun hk => h hk.symm)]
    · simp only [updateAdd, if_neg hk, lookupKey]
      by_cases hK : k = K
      · rw [if_pos hK, if_pos hK]
      · rw [if_neg hK, if_neg hK, ih]

theorem lookupKey_updateAdd_self (key : String) (msgs : List String)
    (l : List (String × List String)) :
    lookupKey key (updateAdd key msgs l) = some ((lookupKey key l).getD [] ++ msgs) := by
  induction l with
  | nil => simp [updateAdd, lookupKey]
  | cons kv rest ih =>
    obtain ⟨k, v⟩ := kv
    by_cases hk : k = key
    · subst hk
      simp [updateAdd, lookupKey]
    · simp only [updateAdd, if_neg hk, lookupKey, ih]

theorem lookupKey_mergeSub_notMem (pfx K : String)
    (entries acc : List (String × List String))
    (h : ∀ kv ∈ entries, K ≠ pfx ++ kv.1) :
    lookupKey K (mergeSub pfx entries acc) = lookupKey K acc := by
  induction entries generalizing acc with
  | nil => rfl
  | cons kv rest ih =>
    obtain ⟨k, msgs⟩ := kv
    simp only [mergeSub]
    rw [ih _ (fun kv hm => h kv (List.mem_cons_of_mem _ hm))]
    exact lookupKey_updateAdd_ne _ _ _ _ (h (k, msgs) (List.mem_cons_self _ _))

/-- Strings that agree after appending the same front agree. -/
theorem strAppend_left_cancel {p a b : String} (h : p ++ a = p ++ b) : a = b := by
  obtain ⟨la⟩ := a
  obtain ⟨lb⟩ := b
  obtain ⟨lp⟩ := p
  have h2 : lp ++ la = lp ++ lb := congrArg String.data h
  exact congrArg String.mk (List.append_cancel_left h2)

theorem lookupKey_mergeSub_mem (pfx k : String) (msgs : List String)
    (entries acc : List (String × List String))
    (hnd : (entries.map Prod.fst).Nodup)
    (h : lookupKey k entries = some msgs) :
    lookupKey (pfx ++ k) (mergeSub pfx entries acc)
      = some ((lookupKey (pfx ++ k) acc).getD [] ++ msgs) := by
  induction entries generalizing acc with
  | nil => simp [lookupKey] at h
  | cons kv rest ih =>
    obtain ⟨k0, m0⟩ := kv
    simp only [List.map_cons, List.nodup_cons] at hnd
    by_cases hk : k0 = k
    · subst hk
      simp only [lookupKey, if_pos rfl] at h
      injection h with h
      subst h
      simp only [mergeSub]
      rw [lookupKey_mergeSub_notMem]
      · exact lookupKey_updateAdd_self _ _ _
      · intro kv hm heq
        exact hnd.1 ((strAppend_left_cancel heq) ▸ List.mem_map_of_mem Prod.fst hm)
    · simp only [lookupKey, if_neg hk] at h
      simp only [mergeSub]
      rw [ih (updateAdd (pfx ++ k0) m0 acc) hnd.2 h,
        lookupKey_updateAdd_ne _ _ _ _ (fun heq => hk (strAppend_left_cancel heq).symm)]

/-! ### Lemmas about validDomain -/

/-- On success the total returned by the label loop is the sum of the
pre-decode byte lengths of the labels. -/
theorem processLabels_ok_total (labels : List (List Char)) (t : Nat) (ls : List (List Char))
    (h : processLabels labels = .ok (t, ls)) : t = (labels.map utf8Len).sum := by
  induction labels generalizing t ls with
  | nil =>
    simp only [processLabels, Except.ok.injEq, Prod.mk.injEq] at h
    simp [h.1.symm]
  | cons l rest ih =>
    simp only [processLabels] at h
    split at h
    · exact absurd h (by simp)
    · split at h
      · exact absurd h (by simp)
      · split at h
        · exact absurd h (by simp)
        · split at h
          · exact absurd h (by simp)
          · rename_i t1 ls1 heq
            simp only [Except.ok.injEq, Prod.mk.injEq] at h
            rw [← h.1, List.map_cons, List.sum_cons, ih t1 ls1 heq]

/-- A label longer than 63 bytes always makes the label loop fail. -/
theorem processLabels_err_of_long (labels : List (List Char))
    (h : labels.any (fun l => 63 < utf8Len l) = true) :
    isFailure (processLabels labels) = true := by
  induction labels with
  | nil => simp at h
  | cons l rest ih =>
    simp only [List.any_cons, Bool.or_eq_true, decide_eq_true_eq] at h
    simp only [processLabels]
    split
    · rfl
    · rename_i hlen
      have hrest : rest.any (fun l => 63 < utf8Len l) = true := by
        rcases h with h1 | h2
        · omega
        · exact h2
      split
      · rfl
      · split
        · rfl
        · have hr := ih hrest
          split
          · rfl
          · rename_i t1 ls1 heq
            rw [heq] at hr
            simp [isFailure] at hr

theorem validDomain_err_of_longLabel (value : List Char) (m : Nat)
    (h : (splitOnDot (stripTrailingDot value)).any (fun l => 63 < utf8Len l) = true) :
    isFailure (validDomain value m) = true := by
  simp only [validDomain]
  split
  · rfl
  · split
    · rfl
    · split
      · rfl
      · have hp := processLabels_err_of_long _ h
        split
        · rfl
        · rename_i t1 ls1 heq
          rw [heq] at hp
          simp [isFailure] at hp

theorem validDomain_ok_sum (value : List Char) (m : Nat) (ls : List (List Char))
    (h : validDomain value m = .ok ls) :
    ((splitOnDot (stripTrailingDot value)).map utf8Len).sum ≤ 255 := by
  simp only [validDomain] at h
  split at h
  · exact absurd h (by simp)
  · split at h
    · exact absurd h (by simp)
    · split at h
      · exact absurd h (by simp)
      · split at h
        · exact absurd h (by simp)
        · rename_i t1 ls1 heq
          split at h
          · exact absurd h (by simp)
          · rename_i hle
            rw [← processLabels_ok_total _ _ _ heq]
            omega

/-! ### The claims -/

/-- C1: `Domain` on a fresh validator with value "xn--bcher-kva.example"
appends nothing and returns exactly the labels ["bücher", "example"];
the "bcher-kva" suffix punycode-decodes to "bücher" (literal part
"bcher", one insertion of 'ü' at position 1), and both labels pass the
letter/digit/hyphen check. -/
theorem claim1_idn_domain (key : String) :
    Validator.new.domain key "xn--bcher-kva.example" [] = (Validator.new, some ["bücher", "example"])
    ∧ punyDecode "bcher-kva".data = some "bücher".data := by
  exact ⟨rfl, by decide⟩

/-- C2 counterexample: "a..b" contains an empty label after splitting,
yet `validDomain` (and hence `Domain` and `Hostname`) accepts it,
returning the labels ["a", "", "b"] — the claim that such inputs fail
with an "invalid character" or other structural error is false. -/
theorem claim2_counterexample :
    validDomain "a..b".data 2 = .ok [['a'], [], ['b']]
    ∧ Validator.new.hostname "k" "a..b" [] = (Validator.new, some ["a", "", "b"]) := by
  exact ⟨by decide, by decide⟩

/-- C2 amended: an empty label is never rejected — it passes every
per-label check vacuously (length 0, no "xn--", no characters to
test) and is preserved in the returned labels, contributing 0 bytes to
the running total; e.g. `Domain("a..b")` succeeds with ["a","","b"]. -/
theorem claim2_empty_label_accepted (rest : List (List Char)) :
    processLabels ([] :: rest)
      = (match processLabels rest with
         | .error e => Except.error e
         | .ok (t, ls) => Except.ok (t, [] :: ls))
    ∧ Validator.new.domain "k" "a..b" [] = (Validator.new, some ["a", "", "b"]) := by
  constructor
  · cases hpr : processLabels rest with
    | error e => simp [processLabels, hpr, utf8Len]
    | ok p =>
      obtain ⟨t, ls⟩ := p
      simp [processLabels, hpr, utf8Len]
  · decide

set_option maxRecDepth 4000 in
/-- C3 counterexample: 129 one-letter labels joined by dots form an
input of 257 bytes (labels plus separators) that `validDomain`
accepts — the claimed 255-byte bound on labels-plus-separators does
not hold on success, because the code sums only the label bytes. -/
theorem claim3_counterexample :
    validDomain (String.intercalate "." (List.replicate 129 "a")).data 2
        = .ok (List.replicate 129 ['a'])
    ∧ 255 < utf8Len (stripTrailingDot (String.intercalate "." (List.replicate 129 "a")).data) := by
  exact ⟨by decide, by decide⟩

/-- C3 amended: on every success of `validDomain` the sum of the
pre-decode byte lengths of the labels alone — the dot separators are
not counted — is at most 255. -/
theorem claim3_label_bytes_bounded (value : List Char) (m : Nat) (ls : List (List Char))
    (h : validDomain value m = .ok ls) :
    ((splitOnDot (stripTrailingDot value)).map utf8Len).sum ≤ 255 :=
  validDomain_ok_sum value m ls h

/-- C3 amended, witness: a concrete successful run within the bound. -/
theorem claim3_label_bytes_bounded_witness :
    ((splitOnDot (stripTrailingDot "example.com".data)).map utf8Len).sum ≤ 255 :=
  claim3_label_bytes_bounded "example.com".data 2 ["example".data, "com".data] (by decide)

/-- C4: `Domain` on a fresh validator rejects the single label
"one-label" with structural reason "need at least 2 labels" (appended
as "must be a valid domain: need at least 2 labels"), while `Hostname`
accepts it, because `Hostname` passes `minLabels = 1`. -/
theorem claim4_min_labels (key : String) :
    Validator.new.domain key "one-label" []
        = (⟨[(key, ["must be a valid domain: need at least 2 labels"])]⟩, none)
    ∧ validDomain "one-label".data 2 = .error (.needLabels 2)
    ∧ Validator.new.hostname key "one-label" [] = (Validator.new, some ["one-label"]) := by
  exact ⟨rfl, by decide, rfl⟩

/-- C5 counterexample: the input "a b." followed by 64 'c's contains a
64-byte label, but `validDomain` reports "invalid character: ' '" (the
first label fails first), not the claimed "label is longer than 63
bytes" reason. -/
theorem claim5_counterexample :
    validDomain ("a b.".data ++ List.replicate 64 'c') 2 = .error (.invalidChar ' ')
    ∧ ((splitOnDot (stripTrailingDot ("a b.".data ++ List.replicate 64 'c'))).any
        (fun l => 63 < utf8Len l)) = true := by
  exact ⟨by decide, by decide⟩

/-- C5 amended: every input containing a label of more than 63
pre-decode bytes is rejected by `validDomain` (though the reported
reason can be an earlier structural failure); a single 64-letter label
fails with exactly the "label is longer than 63 bytes" reason, and the
boundary holds — `Hostname` of 63 letters succeeds, 64 letters fails. -/
theorem claim5_long_label_rejected (value : List Char) (m : Nat)
    (h : (splitOnDot (stripTrailingDot value)).any (fun l => 63 < utf8Len l) = true) :
    isFailure (validDomain value m) = true
    ∧ validDomain (List.replicate 64 'a') 1 = .error .labelTooLong
    ∧ Validator.new.hostname "k" (String.mk (List.replicate 63 'a')) []
        = (Validator.new, some [String.mk (List.replicate 63 'a')])
    ∧ Validator.new.hostname "k" (String.mk (List.replicate 64 'a')) []
        = (⟨[("k", ["must be a valid hostname: label is longer than 63 bytes"])]⟩, none) := by
  exact ⟨validDomain_err_of_longLabel value m h, by decide, by decide, by decide⟩

/-- C5 amended, witness at the single 64-letter label. -/
theorem claim5_long_label_rejected_witness :
    isFailure (validDomain (List.replicate 64 'a') 1) = true
    ∧ validDomain (List.replicate 64 'a') 1 = .error .labelTooLong
    ∧ Validator.new.hostname "k" (String.mk (List.replicate 63 'a')) []
        = (Validator.new, some [String.mk (List.replicate 63 'a')])
    ∧ Validator.new.hostname "k" (String.mk (List.replicate 64 'a')) []
        = (⟨[("k", ["must be a valid hostname: label is longer than 63 bytes"])]⟩, none) :=
  claim5_long_label_rejected (List.replicate 64 'a') 1 (by decide)

/-- C6: two `Append`s on the same key of a fresh validator make `Pop`
return both messages in call order and remove the key, after which
`HasErrors` is false; and `Pop` of an absent key returns `none` (Go's
nil) and leaves the map unchanged.  The two '%'-free hypotheses record
that `Append`'s `fmt.Sprintf` pass-through is the identity only for
messages without a '%' verb. -/
theorem claim6_append_pop (k m1 m2 : String) (w : Validator) (key : String)
    (_hm1 : m1.data.contains '%' = false) (_hm2 : m2.data.contains '%' = false)
    (habs : lookupKey key w.errors = none) :
    ((Validator.new.append k m1).append k m2).pop k = (some [m1, m2], Validator.new)
    ∧ ((((Validator.new.append k m1).append k m2).pop k).2).hasErrors = false
    ∧ w.pop key = (none, w) := by
  refine ⟨?_, ?_, ?_⟩
  · simp [Validator.pop, Validator.append, Validator.new, updateAdd, lookupKey, eraseKey]
  · simp [Validator.pop, Validator.append, Validator.new, updateAdd, lookupKey, eraseKey,
      Validator.hasErrors]
  · simp [Validator.pop, habs]

/-- C6 witness: concrete '%'-free keys and messages, with the absent
key discharged on the fresh validator. -/
theorem claim6_append_pop_witness :
    ((Validator.new.append "a" "x").append "a" "y").pop "a" = (some ["x", "y"], Validator.new)
    ∧ ((((Validator.new.append "a" "x").append "a" "y").pop "a").2).hasErrors = false
    ∧ Validator.new.pop "b" = (none, Validator.new) :=
  claim6_append_pop "a" "x" "y" Validator.new "b" (by decide) (by decide) (by decide)

/-- C7: `Sub(parentKey, subKey, err)` with an accumulator-shaped `err`
holding at least one error appends, for every key `k` of `err`, the
corresponding message list onto whatever is already at the composed key
`composeKey parentKey subKey ++ "." ++ k` in the parent; every key not
of that form is untouched; and repeating the same `Sub` appends the
same messages again ("x.y" goes from ["b"] to ["b","b"]). -/
theorem claim7_sub_merges (parent : Validator) (pk sk : String) (e : Validator)
    (hhas : e.hasErrors = true) (hnd : (e.errors.map Prod.fst).Nodup) :
    (∀ k msgs, lookupKey k e.errors = some msgs →
        lookupKey (composeKey pk sk ++ "." ++ k) (parent.sub pk sk (some (.vala e))).errors
          = some ((lookupKey (composeKey pk sk ++ "." ++ k) parent.errors).getD [] ++ msgs))
    ∧ (∀ K : String, (∀ k ∈ e.errors.map Prod.fst, K ≠ composeKey pk sk ++ "." ++ k) →
        lookupKey K (parent.sub pk sk (some (.vala e))).errors = lookupKey K parent.errors)
    ∧ ((((⟨[("x", ["a"])]⟩ : Validator).sub "x" "" (some (.vala ⟨[("y", ["b"])]⟩))).sub "x" ""
          (some (.vala ⟨[("y", ["b"])]⟩)))
        = ⟨[("x", ["a"]), ("x.y", ["b", "b"])]⟩) := by
  refine ⟨?_, ?_, by decide⟩
  · intro k msgs hk
    simp only [Validator.sub, hhas, Bool.not_true, Bool.false_eq_true, if_false]
    exact lookupKey_mergeSub_mem (composeKey pk sk ++ ".") k msgs e.errors parent.errors hnd hk
  · intro K hK
    simp only [Validator.sub, hhas, Bool.not_true, Bool.false_eq_true, if_false]
    exact lookupKey_mergeSub_notMem (composeKey pk sk ++ ".") K e.errors parent.errors
      (fun kv hm => hK kv.1 (List.mem_map_of_mem Prod.fst hm))

/-- C7 witness: the spec's example — parent {"x": ["a"]}, child
{"y": ["b"]}, `Sub("x", "", child)` puts ["b"] at "x.y". -/
theorem claim7_sub_merges_witness :
    lookupKey (composeKey "x" "" ++ "." ++ "y")
        (((⟨[("x", ["a"])]⟩ : Validator).sub "x" "" (some (.vala ⟨[("y", ["b"])]⟩))).errors)
      = some ((lookupKey (composeKey "x" "" ++ "." ++ "y")
          ((⟨[("x", ["a"])]⟩ : Validator).errors)).getD [] ++ ["b"]) :=
  (claim7_sub_merges ⟨[("x", ["a"])]⟩ "x" "" ⟨[("y", ["b"])]⟩ (by decide) (by decide)).1
    "y" ["b"] (by decide)

/-- C8: `Sub` with a non-empty subKey and a plain (non-accumulator)
error puts exactly the error's text under "parentKey[subKey]", with no
trailing field name.  The hypothesis records that `Append`'s
`fmt.Sprintf` pass-through is the identity only for '%'-free texts. -/
theorem claim8_sub_plain (msg : String) (_hnoverb : msg.data.contains '%' = false) :
    Validator.new.sub "addresses" "office" (some (.plain msg))
      = ⟨[("addresses[office]", [msg])]⟩ := by
  rfl

/-- C8 witness: the spec's plainError("boom") example. -/
theorem claim8_sub_plain_witness :
    Validator.new.sub "addresses" "office" (some (.plain "boom"))
      = ⟨[("addresses[office]", ["boom"])]⟩ :=
  claim8_sub_plain "boom" (by decide)

/-- C9: the text rendering of {"k": ["oh no","more"], "k2": ["asd"]} is
exactly "k: oh no, more.\nk2: asd.\n" whatever order the entries are
held in (keys are sorted); an empty-string key renders only its joined
messages; no errors render as the empty string. -/
theorem claim9_render :
    Validator.render ⟨[("k", ["oh no", "more"]), ("k2", ["asd"])]⟩ = "k: oh no, more.\x0ak2: asd.\x0a"
    ∧ Validator.render ⟨[("k2", ["asd"]), ("k", ["oh no", "more"])]⟩ = "k: oh no, more.\x0ak2: asd.\x0a"
    ∧ Validator.render ⟨[("", ["oh no", "more"])]⟩ = "oh no, more.\x0a"
    ∧ Validator.render Validator.new = "" := by
  exact ⟨by decide, by decide, by decide, by decide⟩

/-- C10: `Domain` and `Hostname` treat the empty string as valid for
every key, every prior validator state and every custom message: they
return Go's nil and leave the error map untouched — the
shorter-than-3-bytes rejection is never reached on empty input. -/
theorem claim10_empty_input (v : Validator) (key : String) (message : List String) :
    v.domain key "" message = (v, none) ∧ v.hostname key "" message = (v, none) := by
  exact ⟨rfl, rfl⟩

end ZV

